import Mathlib

/-!
Shallow embedding of `parallel.py` (flink-dist), a log-validation script:
`main` handles the command line, `parse` scans a delimited log file once,
accumulating `defaultdict(int)` counters, and then prints consistency
reports.  Python dictionaries are modelled as insertion-ordered
association lists; a `defaultdict` read that creates its key is modelled
explicitly (`dtouch`).
-/

namespace ParallelVerify

/-- Plain dictionary lookup on an insertion-ordered association list. -/
def dfind? {α β : Type} [DecidableEq α] (k : α) : List (α × β) → Option β
  | [] => none
  | p :: rest => if p.1 = k then some p.2 else dfind? k rest

/-- Read with default: the value a Python `defaultdict(int)` produces for a
key, `d` standing for `int() = 0` when the key is absent. -/
def dget {α β : Type} [DecidableEq α] (d : β) (k : α) (m : List (α × β)) : β :=
  (dfind? k m).getD d

/-- Store a value: overwrite in place when the key is present, append when
absent (Python dictionaries keep insertion order). -/
def dset {α β : Type} [DecidableEq α] (k : α) (v : β) : List (α × β) → List (α × β)
  | [] => [(k, v)]
  | p :: rest => if p.1 = k then (k, v) :: rest else p :: dset k v rest

/-- A `defaultdict` read silently creates an absent key with the default
value; `dtouch` is that side effect of evaluating `m[k]`. -/
def dtouch {α β : Type} [DecidableEq α] (d : β) (k : α) (m : List (α × β)) : List (α × β) :=
  match dfind? k m with
  | some _ => m
  | none => m ++ [(k, d)]

/-- The keys of an association list are pairwise distinct. -/
def KeysNodup {α β : Type} (m : List (α × β)) : Prop :=
  m.Pairwise (fun p q => p.1 ≠ q.1)

section DictLemmas

variable {α β : Type} [DecidableEq α]

theorem dfind?_dset_self (k : α) (v : β) (m : List (α × β)) :
    dfind? k (dset k v m) = some v := by
  induction m with
  | nil => simp [dset, dfind?]
  | cons p rest ih =>
    by_cases hp : p.1 = k
    · simp [dset, hp, dfind?]
    · simp [dset, hp, dfind?, ih]

theorem dfind?_dset_of_ne {a k : α} (h : a ≠ k) (v : β) (m : List (α × β)) :
    dfind? a (dset k v m) = dfind? a m := by
  have hka : ¬ k = a := Ne.symm h
  induction m with
  | nil => simp [dset, dfind?, hka]
  | cons p rest ih =>
    by_cases hp : p.1 = k
    · simp [dset, hp, dfind?, hka]
    · simp [dset, hp, dfind?, ih]

theorem dget_dset_self (d : β) (k : α) (v : β) (m : List (α × β)) :
    dget d k (dset k v m) = v := by
  simp [dget, dfind?_dset_self]

theorem dget_dset_of_ne {a k : α} (h : a ≠ k) (d v : β) (m : List (α × β)) :
    dget d a (dset k v m) = dget d a m := by
  simp [dget, dfind?_dset_of_ne h]

theorem mem_keys_iff_dfind? {k : α} {m : List (α × β)} :
    k ∈ m.map Prod.fst ↔ (dfind? k m).isSome = true := by
  induction m with
  | nil => simp [dfind?]
  | cons p rest ih =>
    by_cases hp : p.1 = k
    · simp [dfind?, hp]
    · have : ¬ k = p.1 := fun hk => hp hk.symm
      simp [dfind?, hp, this, ih]

theorem dtouch_of_mem {k : α} {m : List (α × β)} (d : β) (h : k ∈ m.map Prod.fst) :
    dtouch d k m = m := by
  rw [mem_keys_iff_dfind?] at h
  unfold dtouch
  cases hf : dfind? k m with
  | none => rw [hf] at h; simp at h
  | some v => rfl

theorem dtouch_of_not_mem {k : α} {m : List (α × β)} (d : β) (h : k ∉ m.map Prod.fst) :
    dtouch d k m = m ++ [(k, d)] := by
  unfold dtouch
  cases hf : dfind? k m with
  | none => rfl
  | some v => exact absurd (mem_keys_iff_dfind?.mpr (by simp [hf])) h

theorem dfind?_append_right {k : α} {m₁ m₂ : List (α × β)}
    (h : dfind? k m₁ = none) : dfind? k (m₁ ++ m₂) = dfind? k m₂ := by
  induction m₁ with
  | nil => simp
  | cons p rest ih =>
    by_cases hp : p.1 = k
    · simp [dfind?, hp] at h
    · simp [dfind?, hp] at h ⊢
      exact ih h

theorem dget_dtouch_self (d : β) (k : α) (m : List (α × β)) :
    dget d k (dtouch d k m) = dget d k m := by
  unfold dtouch
  cases hf : dfind? k m with
  | none => simp [dget, dfind?_append_right hf, hf, dfind?]
  | some v => rfl

theorem dfind?_append_single_of_ne {a k : α} (h : ¬ k = a) (d : β) (m : List (α × β)) :
    dfind? a (m ++ [(k, d)]) = dfind? a m := by
  induction m with
  | nil => simp [dfind?, h]
  | cons p rest ih =>
    by_cases hp : p.1 = a
    · simp [dfind?, hp]
    · simp [dfind?, hp, ih]

theorem dfind?_dtouch_of_ne {a k : α} (h : a ≠ k) (d : β) (m : List (α × β)) :
    dfind? a (dtouch d k m) = dfind? a m := by
  unfold dtouch
  cases hf : dfind? k m with
  | none => exact dfind?_append_single_of_ne (Ne.symm h) d m
  | some v => rfl

theorem mem_keys_dset {a k : α} {v : β} {m : List (α × β)} :
    a ∈ (dset k v m).map Prod.fst ↔ a = k ∨ a ∈ m.map Prod.fst := by
  induction m with
  | nil => simp [dset]
  | cons p rest ih =>
    by_cases hp : p.1 = k
    · simp [dset, hp]
      try tauto
    · simp [dset, hp, ih]
      try tauto

theorem keysNodup_dset {k : α} {v : β} {m : List (α × β)} (h : KeysNodup m) :
    KeysNodup (dset k v m) := by
  induction m with
  | nil => simp [dset, KeysNodup]
  | cons p rest ih =>
    rw [KeysNodup, List.pairwise_cons] at h
    by_cases hp : p.1 = k
    · rw [KeysNodup]
      have hd : dset k v (p :: rest) = (k, v) :: rest := by simp [dset, hp]
      rw [hd, List.pairwise_cons]
      refine ⟨fun q hq => ?_, h.2⟩
      exact hp ▸ h.1 q hq
    · rw [KeysNodup]
      have hd : dset k v (p :: rest) = p :: dset k v rest := by simp [dset, hp]
      rw [hd, List.pairwise_cons]
      refine ⟨fun q hq => ?_, ih h.2⟩
      have : q.1 = k ∨ q.1 ∈ rest.map Prod.fst := by
        rw [← mem_keys_dset (v := v)]
        exact List.mem_map_of_mem Prod.fst hq
      rcases this with hk | hmem
      · rw [hk]; exact hp
      · rcases List.mem_map.mp hmem with ⟨q', hq', hq'1⟩
        exact hq'1 ▸ h.1 q' hq'

theorem keysNodup_dtouch {k : α} (d : β) {m : List (α × β)} (h : KeysNodup m) :
    KeysNodup (dtouch d k m) := by
  by_cases hk : k ∈ m.map Prod.fst
  · rw [dtouch_of_mem d hk]; exact h
  · rw [dtouch_of_not_mem d hk]
    rw [KeysNodup, List.pairwise_append]
    refine ⟨h, by simp [KeysNodup], fun p hp q hq => ?_⟩
    simp only [List.mem_singleton] at hq
    subst hq
    intro hpk
    apply hk
    have hpk1 : p.1 = k := hpk
    exact hpk1 ▸ List.mem_map_of_mem Prod.fst hp

theorem dfind?_eq_some_of_mem {m : List (α × β)} (hnd : KeysNodup m)
    {k : α} {v : β} (h : (k, v) ∈ m) : dfind? k m = some v := by
  induction m with
  | nil => simp at h
  | cons p rest ih =>
    rw [KeysNodup, List.pairwise_cons] at hnd
    rcases List.mem_cons.mp h with hh | hh
    · rw [← hh]; simp [dfind?]
    · have hpk : ¬ p.1 = k := by
        intro hpk
        exact (hpk ▸ hnd.1 (k, v) hh) rfl
      simp [dfind?, hpk]
      exact ih hnd.2 hh

theorem dget_eq_of_mem {m : List (α × β)} (hnd : KeysNodup m)
    {k : α} {v : β} (d : β) (h : (k, v) ∈ m) : dget d k m = v := by
  simp [dget, dfind?_eq_some_of_mem hnd h]

theorem mem_of_mem_keys {m : List (α × β)} {k : α} (d : β)
    (h : k ∈ m.map Prod.fst) : (k, dget d k m) ∈ m := by
  induction m with
  | nil => simp at h
  | cons p rest ih =>
    by_cases hp : p.1 = k
    · have hv : dget d k (p :: rest) = p.2 := by simp [dget, dfind?, hp]
      rw [hv, ← hp]
      exact List.mem_cons_self _ _
    · have hv : dget d k (p :: rest) = dget d k rest := by simp [dget, dfind?, hp]
      rw [hv]
      have hr : k ∈ rest.map Prod.fst := by
        rw [List.map_cons, List.mem_cons] at h
        rcases h with hh | hh
        · exact absurd hh.symm hp
        · exact hh
      exact List.mem_cons_of_mem p (ih hr)

end DictLemmas

/-- One parsed input line: `timestamp, number, name, operator_count =
line.split(separator)` with `number` and `operator_count` converted by
`int(...)` and `name` stripped. -/
structure LogLine where
  timestamp : String
  number : Int
  name : String
  operator_count : Int
deriving DecidableEq, Repr

/-- The accumulator variables of `parse`, named as in the script. -/
structure ParseState where
  totalOperatorCounts : List (String × Nat)
  maxOperatorSum : List (String × Int)
  numberCount : List (Int × Nat)
  total_lines : Nat
  max_number : Int
deriving DecidableEq, Repr

/-- All dictionaries empty, `total_lines = 0`, `max_number = 0`. -/
def initState : ParseState := ⟨[], [], [], 0, 0⟩

/-- The body of the scan loop of `parse` for one line.  Reading
`maxOperatorSum[name]` in the comparison creates the key with value `0`
when it is absent (defaultdict), hence the `dtouch`. -/
def processLine (st : ParseState) (l : LogLine) : ParseState :=
  let touched := dtouch 0 l.name st.maxOperatorSum
  { totalOperatorCounts :=
      dset l.name (dget 0 l.name st.totalOperatorCounts + 1) st.totalOperatorCounts
    maxOperatorSum :=
      if dget 0 l.name st.maxOperatorSum < l.operator_count then
        dset l.name l.operator_count touched
      else touched
    numberCount := dset l.number (dget 0 l.number st.numberCount + 1) st.numberCount
    total_lines := st.total_lines + 1
    max_number := if l.number > st.max_number then l.number else st.max_number }

/-- The whole scan over an already-parsed log. -/
def runLog (st : ParseState) (log : List LogLine) : ParseState :=
  log.foldl processLine st

/-- One printed diagnostic of the reporting phase, with exactly the values
the script interpolates into the corresponding `print`. -/
inductive Report where
  | opMismatch (name : String) (maxSum : Int) (totalCount : Nat)
  | seqMismatch (key : Int) (value : Nat) (numSources : Nat)
  | totalRange (total : Nat) (maxNumber : Int)
  | totalPerOp (total : Nat) (names : List String)
  | summary (total : Nat)
deriving DecidableEq, Repr

/-- The ordering `sorted(numberCount.items())` uses, restricted to the
first component; keys are distinct, so this agrees with the
lexicographic tuple order of Python. -/
def pairLE (a b : Int × Nat) : Prop := a.1 ≤ b.1

instance : DecidableRel pairLE := fun a b => inferInstanceAs (Decidable (a.1 ≤ b.1))

instance : IsTotal (Int × Nat) pairLE := ⟨fun a b => le_total a.1 b.1⟩

instance : IsTrans (Int × Nat) pairLE := ⟨fun _ _ _ h1 h2 => le_trans h1 h2⟩

/-- `sorted(numberCount.items())`. -/
def sortPairs (m : List (Int × Nat)) : List (Int × Nat) :=
  List.insertionSort pairLE m

/-- The loop over `maxOperatorSum.keys()` comparing the two dictionaries. -/
def opReports (st : ParseState) : List Report :=
  (st.maxOperatorSum.map Prod.fst).filterMap fun name =>
    if dget 0 name st.maxOperatorSum ≠ ((dget 0 name st.totalOperatorCounts : Nat) : Int) then
      some (Report.opMismatch name (dget 0 name st.maxOperatorSum)
        (dget 0 name st.totalOperatorCounts))
    else none

/-- `numberCount` after the read `numberCount[1]`, which creates key `1`
with value `0` when no line carried sequence number `1`. -/
def touchedNumberCount (st : ParseState) : List (Int × Nat) :=
  dtouch 0 1 st.numberCount

/-- `numberOfParallelSources = numberCount[1]`. -/
def npsOf (st : ParseState) : Nat :=
  dget 0 1 (touchedNumberCount st)

/-- The loop over `sorted(numberCount.items())`. -/
def seqReports (st : ParseState) : List Report :=
  (sortPairs (touchedNumberCount st)).filterMap fun p =>
    if p.2 ≠ npsOf st then some (Report.seqMismatch p.1 p.2 (npsOf st)) else none

/-- The check `total_lines != max_number * numberOfParallelSources`, after
`max_number += 1`. -/
def rangeReports (st : ParseState) : List Report :=
  if (st.total_lines : Int) ≠ (st.max_number + 1) * (npsOf st : Int) then
    [Report.totalRange st.total_lines (st.max_number + 1)]
  else []

/-- The check `total_lines != sum(totalOperatorCounts.values())`. -/
def perOpReports (st : ParseState) : List Report :=
  if st.total_lines ≠ (st.totalOperatorCounts.map Prod.snd).sum then
    [Report.totalPerOp st.total_lines (st.totalOperatorCounts.map Prod.fst)]
  else []

/-- The complete reporting phase of `parse`, in print order, ending with
the unconditional summary line. -/
def reportOf (st : ParseState) : List Report :=
  opReports st ++ seqReports st ++ rangeReports st ++ perOpReports st ++
    [Report.summary st.total_lines]

/-- Does `pat` stand at the head of `s`? -/
def leadsWith : List Char → List Char → Bool
  | [], _ => true
  | _ :: _, [] => false
  | p :: ps, c :: cs => p == c && leadsWith ps cs

/-- First occurrence of the (non-empty) separator: the characters before
it and the characters after it. -/
def breakOn (sep : List Char) : List Char → Option (List Char × List Char)
  | [] => none
  | c :: cs =>
    if leadsWith sep (c :: cs) then some ([], (c :: cs).drop sep.length)
    else
      match breakOn sep cs with
      | none => none
      | some (pre, post) => some (c :: pre, post)

/-- Python `s.split(sep)` on characters, for a non-empty separator; the
fuel argument only bounds the recursion and is always sufficient when the
separator is non-empty (Python raises on an empty separator, which no
claim exercises). -/
def splitChars (sep : List Char) : Nat → List Char → List (List Char)
  | 0, s => [s]
  | fuel + 1, s =>
    match breakOn sep s with
    | none => [s]
    | some (pre, post) => pre :: splitChars sep fuel post

/-- Python `s.split(sep)`. -/
def pySplit (sep s : String) : List String :=
  (splitChars sep.data (s.data.length + 1) s.data).map fun cs => String.mk cs

/-- Strip leading and trailing whitespace characters. -/
def stripChars (cs : List Char) : List Char :=
  ((cs.dropWhile Char.isWhitespace).reverse.dropWhile Char.isWhitespace).reverse

/-- Python `s.strip()` with no argument (whitespace). -/
def pyStrip (s : String) : String := String.mk (stripChars s.data)

/-- Digits-only reading of a natural number (base 10). -/
def digitsToNat? : List Char → Option Nat
  | [] => none
  | cs =>
    if cs.all Char.isDigit then
      some (cs.foldl (fun a c => a * 10 + (c.toNat - 48)) 0)
    else none

/-- Python `int(s)`: surrounding whitespace is stripped, an optional sign
is allowed, then base-10 digits; anything else raises `ValueError`.
(Digit-group underscores of Python 3.6 are not modelled; no input of the
claims uses them.) -/
def pyInt? (s : String) : Option Int :=
  match (pyStrip s).data with
  | '+' :: cs => (digitsToNat? cs).map Int.ofNat
  | '-' :: cs => (digitsToNat? cs).map (fun n => -(n : Int))
  | cs => (digitsToNat? cs).map Int.ofNat

/-- One line of the scan loop up to the state update:
`timestamp, number, name, operator_count = line.split(separator)` (exactly
four fields or the unpacking raises), `int` conversion of fields 2 and 4,
`strip()` of field 3.  `none` is the unhandled fatal error. -/
def parseLine (separator line : String) : Option LogLine :=
  match pySplit separator line with
  | [t, n, nm, oc] => do
    let number ← pyInt? n
    let operator_count ← pyInt? oc
    pure ⟨t, number, pyStrip nm, operator_count⟩
  | _ => none

/-- The scan over the raw file lines; the first malformed line aborts the
whole run (unhandled exception), so nothing after it is processed. -/
def runLines (separator : String) : ParseState → List String → Option ParseState
  | st, [] => some st
  | st, line :: rest =>
    match parseLine separator line with
    | none => none
    | some l => runLines separator (processLine st l) rest

/-- The function `parse(inputfile, separator)` on the file's lines:
`none` when the scan dies on a malformed line, otherwise the printed
reports. -/
def parse (separator : String) (fileLines : List String) : Option (List Report) :=
  (runLines separator initState fileLines).map reportOf

/-- Python substring containment, `pat in s`. -/
def pyContains (s pat : String) : Bool :=
  (List.range (s.data.length + 1)).any fun i => leadsWith pat.data (s.data.drop i)

/-- Observable outcome of `main(argv)`: either the usage message with
`sys.exit(2)` before any file is opened, or the call
`parse(inputfile, separator)`. -/
inductive MainResult where
  | usage (msg : String) (exitCode : Nat)
  | run (inputfile : String) (separator : String)
deriving DecidableEq, Repr

def usageMsg : String := "Usage: verify.py <inputfile> --separator="

/-- The function `main(argv)` of the script (argv without the program
name).  The separator is `argv[1][12:]` exactly when there is a second
argument containing the literal marker `--separator=`. -/
def main (argv : List String) : MainResult :=
  if argv.length > 2 ∨ argv.length = 0 then
    MainResult.usage usageMsg 2
  else
    let inputfile := argv.getD 0 ""
    let separator :=
      if argv.length = 2 ∧ pyContains (argv.getD 1 "") "--separator=" then
        (argv.getD 1 "").drop 12
      else ","
    MainResult.run inputfile separator

/-- Number of lines attributed to operator `s` (its true line count). -/
def countName (s : String) (log : List LogLine) : Nat :=
  log.countP fun l => decide (l.name = s)

/-- Number of lines carrying sequence number `n` (its receipt count). -/
def countNum (n : Int) (log : List LogLine) : Nat :=
  log.countP fun l => decide (l.number = n)

/-- Maximum `operator_count` reported by operator `s`, floored at the
defaultdict initial value 0. -/
def maxOpSpec (s : String) (log : List LogLine) : Int :=
  log.foldl (fun a l => if l.name = s then max a l.operator_count else a) 0

/-- Maximum sequence number observed, floored at the initial value 0. -/
def maxSeqSpec (log : List LogLine) : Int :=
  log.foldl (fun a l => max a l.number) 0

/-- The parallelism baseline: receipt count of sequence number 1. -/
def npsSpec (log : List LogLine) : Nat :=
  countNum 1 log

/-- The sequence number a per-sequence-number report is about. -/
def seqKey? : Report → Option Int
  | .seqMismatch k _ _ => some k
  | _ => none

section DictExtra

variable {α β : Type} [DecidableEq α]

theorem dget_dtouch_of_ne {a k : α} (h : a ≠ k) (d d' : β) (m : List (α × β)) :
    dget d a (dtouch d' k m) = dget d a m := by
  simp [dget, dfind?_dtouch_of_ne h]

theorem mem_keys_dtouch {a k : α} {d : β} {m : List (α × β)} :
    a ∈ (dtouch d k m).map Prod.fst ↔ a = k ∨ a ∈ m.map Prod.fst := by
  by_cases hk : k ∈ m.map Prod.fst
  · rw [dtouch_of_mem d hk]
    constructor
    · exact Or.inr
    · rintro (hh | hh)
      · exact hh ▸ hk
      · exact hh
  · rw [dtouch_of_not_mem d hk]
    simp
    tauto

end DictExtra

theorem runLog_nil (st : ParseState) : runLog st [] = st := rfl

theorem runLog_cons (st : ParseState) (l : LogLine) (log : List LogLine) :
    runLog st (l :: log) = runLog (processLine st l) log := rfl

theorem total_lines_processLine (st : ParseState) (l : LogLine) :
    (processLine st l).total_lines = st.total_lines + 1 := rfl

theorem totalOperatorCounts_processLine (st : ParseState) (l : LogLine) :
    (processLine st l).totalOperatorCounts =
      dset l.name (dget 0 l.name st.totalOperatorCounts + 1) st.totalOperatorCounts := rfl

theorem numberCount_processLine (st : ParseState) (l : LogLine) :
    (processLine st l).numberCount =
      dset l.number (dget 0 l.number st.numberCount + 1) st.numberCount := rfl

theorem max_number_processLine (st : ParseState) (l : LogLine) :
    (processLine st l).max_number = max st.max_number l.number := by
  show (if l.number > st.max_number then l.number else st.max_number) = _
  rcases le_total l.number st.max_number with h | h
  · rw [max_eq_left h, if_neg (not_lt.mpr h)]
  · rw [max_eq_right h]
    rcases lt_or_eq_of_le h with h2 | h2
    · rw [if_pos h2]
    · rw [h2]; simp

theorem maxOperatorSum_processLine (st : ParseState) (l : LogLine) :
    (processLine st l).maxOperatorSum =
      (if dget 0 l.name st.maxOperatorSum < l.operator_count then
        dset l.name l.operator_count (dtouch 0 l.name st.maxOperatorSum)
      else dtouch 0 l.name st.maxOperatorSum) := rfl

theorem total_lines_runLog (st : ParseState) (log : List LogLine) :
    (runLog st log).total_lines = st.total_lines + log.length := by
  induction log generalizing st with
  | nil => simp [runLog]
  | cons l ls ih =>
    rw [runLog_cons, ih, total_lines_processLine]
    simp
    omega

theorem dget_totalOperatorCounts_processLine (st : ParseState) (l : LogLine) (s : String) :
    dget 0 s (processLine st l).totalOperatorCounts =
      dget 0 s st.totalOperatorCounts + (if l.name = s then 1 else 0) := by
  rw [totalOperatorCounts_processLine]
  by_cases hs : l.name = s
  · subst hs
    rw [dget_dset_self, if_pos rfl]
  · rw [dget_dset_of_ne (fun hh => hs hh.symm), if_neg hs]
    omega

theorem dget_totalOperatorCounts_runLog (st : ParseState) (log : List LogLine) (s : String) :
    dget 0 s (runLog st log).totalOperatorCounts =
      dget 0 s st.totalOperatorCounts + countName s log := by
  induction log generalizing st with
  | nil => simp [runLog, countName]
  | cons l ls ih =>
    rw [runLog_cons, ih, dget_totalOperatorCounts_processLine]
    unfold countName
    rw [List.countP_cons]
    by_cases hs : l.name = s
    · simp [countName, hs]; omega
    · simp [countName, hs]

theorem dget_numberCount_processLine (st : ParseState) (l : LogLine) (n : Int) :
    dget 0 n (processLine st l).numberCount =
      dget 0 n st.numberCount + (if l.number = n then 1 else 0) := by
  rw [numberCount_processLine]
  by_cases hn : l.number = n
  · subst hn
    rw [dget_dset_self, if_pos rfl]
  · rw [dget_dset_of_ne (fun hh => hn hh.symm), if_neg hn]
    omega

theorem dget_numberCount_runLog (st : ParseState) (log : List LogLine) (n : Int) :
    dget 0 n (runLog st log).numberCount =
      dget 0 n st.numberCount + countNum n log := by
  induction log generalizing st with
  | nil => simp [runLog, countNum]
  | cons l ls ih =>
    rw [runLog_cons, ih, dget_numberCount_processLine]
    unfold countNum
    rw [List.countP_cons]
    by_cases hn : l.number = n
    · simp [countNum, hn]; omega
    · simp [countNum, hn]

theorem max_number_runLog (st : ParseState) (log : List LogLine) :
    (runLog st log).max_number =
      log.foldl (fun a l => max a l.number) st.max_number := by
  induction log generalizing st with
  | nil => simp [runLog]
  | cons l ls ih =>
    rw [runLog_cons, ih, List.foldl_cons, max_number_processLine]

theorem dget_maxOperatorSum_processLine (st : ParseState) (l : LogLine) (s : String) :
    dget 0 s (processLine st l).maxOperatorSum =
      (if l.name = s then max (dget 0 s st.maxOperatorSum) l.operator_count
      else dget 0 s st.maxOperatorSum) := by
  rw [maxOperatorSum_processLine]
  by_cases hs : l.name = s
  · subst hs
    rw [if_pos rfl]
    by_cases hlt : dget 0 l.name st.maxOperatorSum < l.operator_count
    · rw [if_pos hlt, dget_dset_self, max_eq_right (le_of_lt hlt)]
    · rw [if_neg hlt, dget_dtouch_self, max_eq_left (not_lt.mp hlt)]
  · have hns : s ≠ l.name := fun hh => hs hh.symm
    rw [if_neg hs]
    by_cases hlt : dget 0 l.name st.maxOperatorSum < l.operator_count
    · rw [if_pos hlt, dget_dset_of_ne hns, dget_dtouch_of_ne hns]
    · rw [if_neg hlt, dget_dtouch_of_ne hns]

theorem dget_maxOperatorSum_runLog (st : ParseState) (log : List LogLine) (s : String) :
    dget 0 s (runLog st log).maxOperatorSum =
      log.foldl (fun a l => if l.name = s then max a l.operator_count else a)
        (dget 0 s st.maxOperatorSum) := by
  induction log generalizing st with
  | nil => simp [runLog]
  | cons l ls ih =>
    rw [runLog_cons, ih, List.foldl_cons, dget_maxOperatorSum_processLine]

theorem mem_keys_numberCount_runLog (st : ParseState) (log : List LogLine) (n : Int) :
    n ∈ (runLog st log).numberCount.map Prod.fst ↔
      n ∈ st.numberCount.map Prod.fst ∨ ∃ l ∈ log, l.number = n := by
  induction log generalizing st with
  | nil => simp [runLog]
  | cons l ls ih =>
    rw [runLog_cons, ih]
    rw [numberCount_processLine]
    constructor
    · rintro (hh | hh)
      · rcases mem_keys_dset.mp hh with hk | hk
        · exact Or.inr ⟨l, List.mem_cons_self _ _, hk.symm⟩
        · exact Or.inl hk
      · rcases hh with ⟨l', hl', hn'⟩
        exact Or.inr ⟨l', List.mem_cons_of_mem l hl', hn'⟩
    · rintro (hh | hh)
      · exact Or.inl (mem_keys_dset.mpr (Or.inr hh))
      · rcases hh with ⟨l', hl', hn'⟩
        rcases List.mem_cons.mp hl' with he | he
        · exact Or.inl (mem_keys_dset.mpr (Or.inl (he ▸ hn'.symm)))
        · exact Or.inr ⟨l', he, hn'⟩

theorem mem_keys_maxOperatorSum_processLine (st : ParseState) (l : LogLine) (s : String) :
    s ∈ (processLine st l).maxOperatorSum.map Prod.fst ↔
      s = l.name ∨ s ∈ st.maxOperatorSum.map Prod.fst := by
  rw [maxOperatorSum_processLine]
  by_cases hlt : dget 0 l.name st.maxOperatorSum < l.operator_count
  · rw [if_pos hlt, mem_keys_dset, mem_keys_dtouch]
    tauto
  · rw [if_neg hlt, mem_keys_dtouch]

theorem mem_keys_maxOperatorSum_runLog (st : ParseState) (log : List LogLine) (s : String) :
    s ∈ (runLog st log).maxOperatorSum.map Prod.fst ↔
      s ∈ st.maxOperatorSum.map Prod.fst ∨ ∃ l ∈ log, l.name = s := by
  induction log generalizing st with
  | nil => simp [runLog]
  | cons l ls ih =>
    rw [runLog_cons, ih, mem_keys_maxOperatorSum_processLine]
    constructor
    · rintro (hh | hh)
      · rcases hh with hk | hk
        · exact Or.inr ⟨l, List.mem_cons_self _ _, hk.symm⟩
        · exact Or.inl hk
      · rcases hh with ⟨l', hl', hn'⟩
        exact Or.inr ⟨l', List.mem_cons_of_mem l hl', hn'⟩
    · rintro (hh | hh)
      · exact Or.inl (Or.inr hh)
      · rcases hh with ⟨l', hl', hn'⟩
        rcases List.mem_cons.mp hl' with he | he
        · exact Or.inl (Or.inl (he ▸ hn'.symm))
        · exact Or.inr ⟨l', he, hn'⟩

theorem keysNodup_runLog (st : ParseState) (log : List LogLine)
    (h1 : KeysNodup st.totalOperatorCounts) (h2 : KeysNodup st.maxOperatorSum)
    (h3 : KeysNodup st.numberCount) :
    KeysNodup (runLog st log).totalOperatorCounts ∧
      KeysNodup (runLog st log).maxOperatorSum ∧
      KeysNodup (runLog st log).numberCount := by
  induction log generalizing st with
  | nil => exact ⟨h1, h2, h3⟩
  | cons l ls ih =>
    rw [runLog_cons]
    apply ih
    · rw [totalOperatorCounts_processLine]
      exact keysNodup_dset h1
    · rw [maxOperatorSum_processLine]
      by_cases hlt : dget 0 l.name st.maxOperatorSum < l.operator_count
      · rw [if_pos hlt]
        exact keysNodup_dset (keysNodup_dtouch 0 h2)
      · rw [if_neg hlt]
        exact keysNodup_dtouch 0 h2
    · rw [numberCount_processLine]
      exact keysNodup_dset h3

theorem sum_values_dincr {α : Type} [DecidableEq α] (k : α) (m : List (α × Nat)) :
    ((dset k (dget 0 k m + 1) m).map Prod.snd).sum = (m.map Prod.snd).sum + 1 := by
  induction m with
  | nil => simp [dset, dget, dfind?]
  | cons p rest ih =>
    by_cases hp : p.1 = k
    · have hg : dget 0 k (p :: rest) = p.2 := by simp [dget, dfind?, hp]
      have hd : dset k (dget 0 k (p :: rest) + 1) (p :: rest) = (k, p.2 + 1) :: rest := by
        rw [hg]; simp [dset, hp]
      rw [hd]
      simp
      omega
    · have hg : dget 0 k (p :: rest) = dget 0 k rest := by simp [dget, dfind?, hp]
      have hd : dset k (dget 0 k (p :: rest) + 1) (p :: rest) =
          p :: dset k (dget 0 k rest + 1) rest := by
        rw [hg]; simp [dset, hp]
      rw [hd]
      simp [ih]
      omega

theorem total_lines_eq_sum_runLog (st : ParseState) (log : List LogLine)
    (h : st.total_lines = (st.totalOperatorCounts.map Prod.snd).sum) :
    (runLog st log).total_lines =
      ((runLog st log).totalOperatorCounts.map Prod.snd).sum := by
  induction log generalizing st with
  | nil => exact h
  | cons l ls ih =>
    rw [runLog_cons]
    apply ih
    rw [total_lines_processLine, totalOperatorCounts_processLine, sum_values_dincr, h]

theorem shape_opReports {st : ParseState} {r : Report} (h : r ∈ opReports st) :
    ∃ a b c, r = Report.opMismatch a b c := by
  rcases List.mem_filterMap.mp h with ⟨name, _, hf⟩
  by_cases hc : dget 0 name st.maxOperatorSum ≠ ((dget 0 name st.totalOperatorCounts : Nat) : Int)
  · rw [if_pos hc] at hf
    exact ⟨_, _, _, (Option.some_inj.mp hf).symm⟩
  · rw [if_neg hc] at hf
    simp at hf

theorem shape_seqReports {st : ParseState} {r : Report} (h : r ∈ seqReports st) :
    ∃ a b c, r = Report.seqMismatch a b c := by
  rcases List.mem_filterMap.mp h with ⟨p, _, hf⟩
  by_cases hc : p.2 ≠ npsOf st
  · rw [if_pos hc] at hf
    exact ⟨_, _, _, (Option.some_inj.mp hf).symm⟩
  · rw [if_neg hc] at hf
    simp at hf

theorem shape_rangeReports {st : ParseState} {r : Report} (h : r ∈ rangeReports st) :
    ∃ a b, r = Report.totalRange a b := by
  unfold rangeReports at h
  by_cases hc : (st.total_lines : Int) ≠ (st.max_number + 1) * (npsOf st : Int)
  · rw [if_pos hc] at h
    simp at h
    exact ⟨_, _, h⟩
  · rw [if_neg hc] at h
    simp at h

theorem shape_perOpReports {st : ParseState} {r : Report} (h : r ∈ perOpReports st) :
    ∃ a b, r = Report.totalPerOp a b := by
  unfold perOpReports at h
  by_cases hc : st.total_lines ≠ (st.totalOperatorCounts.map Prod.snd).sum
  · rw [if_pos hc] at h
    simp at h
    exact ⟨_, _, h⟩
  · rw [if_neg hc] at h
    simp at h

theorem mem_reportOf_iff {st : ParseState} {r : Report} :
    r ∈ reportOf st ↔
      r ∈ opReports st ∨ r ∈ seqReports st ∨ r ∈ rangeReports st ∨
        r ∈ perOpReports st ∨ r = Report.summary st.total_lines := by
  unfold reportOf
  simp [List.mem_append]

theorem opMismatch_mem_reportOf {st : ParseState} {s : String} {m : Int} {t : Nat} :
    Report.opMismatch s m t ∈ reportOf st ↔
      (s ∈ st.maxOperatorSum.map Prod.fst ∧ m = dget 0 s st.maxOperatorSum ∧
        t = dget 0 s st.totalOperatorCounts ∧ m ≠ ((t : Nat) : Int)) := by
  rw [mem_reportOf_iff]
  constructor
  · rintro (hh | hh | hh | hh | hh)
    · rcases List.mem_filterMap.mp hh with ⟨name, hname, hf⟩
      by_cases hc : dget 0 name st.maxOperatorSum ≠ ((dget 0 name st.totalOperatorCounts : Nat) : Int)
      · rw [if_pos hc] at hf
        have := Option.some_inj.mp hf
        cases this
        exact ⟨hname, rfl, rfl, hc⟩
      · rw [if_neg hc] at hf
        simp at hf
    · rcases shape_seqReports hh with ⟨a, b, c, he⟩; simp at he
    · rcases shape_rangeReports hh with ⟨a, b, he⟩; simp at he
    · rcases shape_perOpReports hh with ⟨a, b, he⟩; simp at he
    · simp at hh
  · rintro ⟨hmem, hm, ht, hne⟩
    left
    apply List.mem_filterMap.mpr
    refine ⟨s, hmem, ?_⟩
    rw [if_pos (by rw [hm, ht] at hne; exact hne)]
    rw [hm, ht]

theorem seqMismatch_mem_reportOf {st : ParseState} {n : Int} {v b : Nat} :
    Report.seqMismatch n v b ∈ reportOf st ↔
      ((n, v) ∈ touchedNumberCount st ∧ b = npsOf st ∧ v ≠ npsOf st) := by
  rw [mem_reportOf_iff]
  constructor
  · rintro (hh | hh | hh | hh | hh)
    · rcases shape_opReports hh with ⟨a, c, d, he⟩; simp at he
    · rcases List.mem_filterMap.mp hh with ⟨p, hp, hf⟩
      by_cases hc : p.2 ≠ npsOf st
      · rw [if_pos hc] at hf
        have := Option.some_inj.mp hf
        cases this
        have hmem : p ∈ touchedNumberCount st :=
          (List.perm_insertionSort pairLE (touchedNumberCount st)).mem_iff.mp hp
        exact ⟨hmem, rfl, hc⟩
      · rw [if_neg hc] at hf
        simp at hf
    · rcases shape_rangeReports hh with ⟨a, c, he⟩; simp at he
    · rcases shape_perOpReports hh with ⟨a, c, he⟩; simp at he
    · simp at hh
  · rintro ⟨hmem, hb, hne⟩
    right; left
    apply List.mem_filterMap.mpr
    refine ⟨(n, v), (List.perm_insertionSort pairLE (touchedNumberCount st)).mem_iff.mpr hmem, ?_⟩
    rw [if_pos hne, hb]

theorem totalRange_mem_reportOf {st : ParseState} {a : Nat} {b : Int} :
    Report.totalRange a b ∈ reportOf st ↔
      (a = st.total_lines ∧ b = st.max_number + 1 ∧
        (st.total_lines : Int) ≠ (st.max_number + 1) * (npsOf st : Int)) := by
  rw [mem_reportOf_iff]
  constructor
  · rintro (hh | hh | hh | hh | hh)
    · rcases shape_opReports hh with ⟨x, y, z, he⟩; simp at he
    · rcases shape_seqReports hh with ⟨x, y, z, he⟩; simp at he
    · unfold rangeReports at hh
      by_cases hc : (st.total_lines : Int) ≠ (st.max_number + 1) * (npsOf st : Int)
      · rw [if_pos hc] at hh
        simp at hh
        exact ⟨hh.1, hh.2, hc⟩
      · rw [if_neg hc] at hh
        simp at hh
    · rcases shape_perOpReports hh with ⟨x, y, he⟩; simp at he
    · simp at hh
  · rintro ⟨ha, hb, hne⟩
    right; right; left
    unfold rangeReports
    rw [if_pos hne]
    simp [ha, hb]

theorem totalPerOp_mem_reportOf {st : ParseState} {a : Nat} {ns : List String} :
    Report.totalPerOp a ns ∈ reportOf st ↔
      (a = st.total_lines ∧ ns = st.totalOperatorCounts.map Prod.fst ∧
        st.total_lines ≠ (st.totalOperatorCounts.map Prod.snd).sum) := by
  rw [mem_reportOf_iff]
  constructor
  · rintro (hh | hh | hh | hh | hh)
    · rcases shape_opReports hh with ⟨x, y, z, he⟩; simp at he
    · rcases shape_seqReports hh with ⟨x, y, z, he⟩; simp at he
    · rcases shape_rangeReports hh with ⟨x, y, he⟩; simp at he
    · unfold perOpReports at hh
      by_cases hc : st.total_lines ≠ (st.totalOperatorCounts.map Prod.snd).sum
      · rw [if_pos hc] at hh
        simp at hh
        exact ⟨hh.1, hh.2, hc⟩
      · rw [if_neg hc] at hh
        simp at hh
    · simp at hh
  · rintro ⟨ha, hns, hne⟩
    right; right; right; left
    unfold perOpReports
    rw [if_pos hne]
    simp [ha, hns]

theorem summary_mem_reportOf {st : ParseState} {a : Nat} :
    Report.summary a ∈ reportOf st ↔ a = st.total_lines := by
  rw [mem_reportOf_iff]
  constructor
  · rintro (hh | hh | hh | hh | hh)
    · rcases shape_opReports hh with ⟨x, y, z, he⟩; simp at he
    · rcases shape_seqReports hh with ⟨x, y, z, he⟩; simp at he
    · rcases shape_rangeReports hh with ⟨x, y, he⟩; simp at he
    · rcases shape_perOpReports hh with ⟨x, y, he⟩; simp at he
    · simp at hh; exact hh
  · intro hh
    right; right; right; right
    rw [hh]

theorem mem_dtouch_of_mem {α β : Type} [DecidableEq α] {p : α × β} {m : List (α × β)}
    (d : β) (k : α) (h : p ∈ m) : p ∈ dtouch d k m := by
  unfold dtouch
  cases dfind? k m with
  | none => exact List.mem_append_left _ h
  | some v => exact h

/-- The baseline `numberCount[1]` after the scan counts the lines whose
sequence number is 1 (reading through the key-creating `dtouch` does not
change the value read). -/
theorem npsOf_runLog (log : List LogLine) :
    npsOf (runLog initState log) = countNum 1 log := by
  unfold npsOf touchedNumberCount
  rw [dget_dtouch_self, dget_numberCount_runLog]
  simp [initState, dget, dfind?]

theorem keysNodup_initState :
    KeysNodup initState.totalOperatorCounts ∧ KeysNodup initState.maxOperatorSum ∧
      KeysNodup initState.numberCount := by
  refine ⟨?_, ?_, ?_⟩ <;> simp [initState, KeysNodup]

theorem mem_numberCount_runLog {log : List LogLine} {n : Int}
    (hobs : ∃ l ∈ log, l.number = n) :
    (n, countNum n log) ∈ (runLog initState log).numberCount := by
  have hkey : n ∈ (runLog initState log).numberCount.map Prod.fst := by
    rw [mem_keys_numberCount_runLog]
    right
    exact hobs
  have hget : dget 0 n (runLog initState log).numberCount = countNum n log := by
    rw [dget_numberCount_runLog]
    simp [initState, dget, dfind?]
  have hmem := mem_of_mem_keys 0 hkey
  rw [hget] at hmem
  exact hmem

/-- C2: for every parseable input, the parallelism baseline used by the
post-scan checks equals the number of lines whose sequence number is
exactly 1, and every observed sequence number whose receipt count differs
from that baseline is reported together with its actual count and the
baseline. -/
theorem C2_baseline_and_reports (log : List LogLine) :
    npsOf (runLog initState log) = countNum 1 log ∧
      ∀ n : Int, (∃ l ∈ log, l.number = n) →
        countNum n log ≠ countNum 1 log →
          Report.seqMismatch n (countNum n log) (countNum 1 log) ∈
            reportOf (runLog initState log) := by
  refine ⟨npsOf_runLog log, fun n hobs hne => ?_⟩
  apply seqMismatch_mem_reportOf.mpr
  refine ⟨?_, (npsOf_runLog log).symm, by rw [npsOf_runLog log]; exact hne⟩
  exact mem_dtouch_of_mem 0 1 (mem_numberCount_runLog hobs)

theorem C2_baseline_and_reports_witness :
    (∃ l ∈ [LogLine.mk "t" 0 "a" 1, LogLine.mk "t" 1 "a" 2, LogLine.mk "t" 0 "b" 1],
        l.number = 0) ∧
      countNum 0 [LogLine.mk "t" 0 "a" 1, LogLine.mk "t" 1 "a" 2, LogLine.mk "t" 0 "b" 1] ≠
        countNum 1 [LogLine.mk "t" 0 "a" 1, LogLine.mk "t" 1 "a" 2, LogLine.mk "t" 0 "b" 1] ∧
      Report.seqMismatch 0
          (countNum 0 [LogLine.mk "t" 0 "a" 1, LogLine.mk "t" 1 "a" 2, LogLine.mk "t" 0 "b" 1])
          (countNum 1 [LogLine.mk "t" 0 "a" 1, LogLine.mk "t" 1 "a" 2, LogLine.mk "t" 0 "b" 1]) ∈
        reportOf (runLog initState
          [LogLine.mk "t" 0 "a" 1, LogLine.mk "t" 1 "a" 2, LogLine.mk "t" 0 "b" 1]) :=
  ⟨by decide, by decide,
    (C2_baseline_and_reports
      [LogLine.mk "t" 0 "a" 1, LogLine.mk "t" 1 "a" 2, LogLine.mk "t" 0 "b" 1]).2
      0 (by decide) (by decide)⟩

/-- C5: the invariant `total_lines = sum of totalOperatorCounts values`
holds after every processed line (every prefix of the input is itself a
log, so the universally quantified statement covers each intermediate
state), hence the total-vs-per-operator check can never print. -/
theorem C5_total_eq_sum (log : List LogLine) :
    (runLog initState log).total_lines =
        ((runLog initState log).totalOperatorCounts.map Prod.snd).sum ∧
      ∀ (t : Nat) (ns : List String),
        Report.totalPerOp t ns ∉ reportOf (runLog initState log) := by
  have hinv := total_lines_eq_sum_runLog initState log (by rfl)
  refine ⟨hinv, fun t ns hmem => ?_⟩
  rcases totalPerOp_mem_reportOf.mp hmem with ⟨_, _, hne⟩
  exact hne hinv

/-- C7: zero or more than two command-line arguments print the usage
message and exit with code 2 before any file is read; exactly one
argument proceeds with separator ",". -/
theorem C7_usage_guard (argv : List String) (f : String) :
    (argv.length = 0 ∨ 2 < argv.length → main argv = MainResult.usage usageMsg 2) ∧
      main [f] = MainResult.run f "," := by
  constructor
  · intro h
    unfold main
    rw [if_pos (Or.symm h)]
  · simp [main]

theorem C7_usage_guard_witness :
    (([] : List String).length = 0 ∨ 2 < ([] : List String).length) ∧
      main ([] : List String) = MainResult.usage usageMsg 2 ∧
      (["a", "b", "c"].length = 0 ∨ 2 < (["a", "b", "c"] : List String).length) ∧
      main ["a", "b", "c"] = MainResult.usage usageMsg 2 ∧
      main ["input.log"] = MainResult.run "input.log" "," :=
  ⟨Or.inl rfl, (C7_usage_guard [] "input.log").1 (Or.inl rfl), Or.inr (by decide),
    (C7_usage_guard ["a", "b", "c"] "input.log").1 (Or.inr (by decide)),
    (C7_usage_guard [] "input.log").2⟩

/-- C8: with exactly two arguments, a second argument containing the
literal marker yields the separator `argv[1][12:]` (characters from fixed
offset 12, where the marker's value begins when the marker is at the
front); otherwise the separator stays "," and the run proceeds. -/
theorem C8_separator_slice (f opt : String) :
    (pyContains opt "--separator=" = true →
        main [f, opt] = MainResult.run f (opt.drop 12)) ∧
      (pyContains opt "--separator=" = false →
        main [f, opt] = MainResult.run f ",") := by
  constructor
  · intro h
    unfold main
    rw [if_neg (by simp)]
    simp [h]
  · intro h
    unfold main
    rw [if_neg (by simp)]
    simp [h]

theorem C8_separator_slice_witness :
    pyContains "--separator=;" "--separator=" = true ∧
      main ["input.log", "--separator=;"] = MainResult.run "input.log" ";" ∧
      pyContains "nonsense" "--separator=" = false ∧
      main ["input.log", "nonsense"] = MainResult.run "input.log" "," := by
  have h1 : pyContains "--separator=;" "--separator=" = true := by decide
  have h2 : pyContains "nonsense" "--separator=" = false := by decide
  have e1 := (C8_separator_slice "input.log" "--separator=;").1 h1
  have e2 := (C8_separator_slice "input.log" "nonsense").2 h2
  exact ⟨h1, by rw [e1]; decide, h2, e2⟩

/-- C10: when no line carries sequence number 1, the baseline lookup
itself inserts key 1 with count 0, the baseline becomes 0, every observed
sequence number is reported (its positive count differs from 0), and the
inserted key 1 itself is not reported. -/
theorem C10_missing_seq_one (log : List LogLine) (_hne : log ≠ [])
    (h1 : ∀ l ∈ log, l.number ≠ 1) :
    npsOf (runLog initState log) = 0 ∧
      ((1 : Int), (0 : Nat)) ∈ touchedNumberCount (runLog initState log) ∧
      (∀ n : Int, (∃ l ∈ log, l.number = n) →
        Report.seqMismatch n (countNum n log) 0 ∈ reportOf (runLog initState log)) ∧
      ∀ v b : Nat, Report.seqMismatch 1 v b ∉ reportOf (runLog initState log) := by
  have hc1 : countNum 1 log = 0 := by
    unfold countNum
    rw [List.countP_eq_zero]
    intro l hl
    simp
    exact h1 l hl
  have hbase : npsOf (runLog initState log) = 0 := by rw [npsOf_runLog, hc1]
  have hkey1 : (1 : Int) ∉ (runLog initState log).numberCount.map Prod.fst := by
    rw [mem_keys_numberCount_runLog]
    rintro (hh | ⟨l, hl, hn⟩)
    · simp [initState] at hh
    · exact h1 l hl hn
  have htouch : touchedNumberCount (runLog initState log) =
      (runLog initState log).numberCount ++ [((1 : Int), (0 : Nat))] :=
    dtouch_of_not_mem 0 hkey1
  refine ⟨hbase, ?_, ?_, ?_⟩
  · rw [htouch]
    exact List.mem_append_right _ (List.mem_singleton.mpr rfl)
  · intro n hobs
    apply seqMismatch_mem_reportOf.mpr
    refine ⟨mem_dtouch_of_mem 0 1 (mem_numberCount_runLog hobs), hbase.symm, ?_⟩
    rw [hbase]
    have hpos : 0 < countNum n log := by
      unfold countNum
      rw [List.countP_pos_iff]
      rcases hobs with ⟨l, hl, hn⟩
      exact ⟨l, hl, by simp [hn]⟩
    omega
  · intro v b hmem
    rcases seqMismatch_mem_reportOf.mp hmem with ⟨hmem1, hb, hvne⟩
    rw [htouch] at hmem1
    rcases List.mem_append.mp hmem1 with hh | hh
    · exact hkey1 (List.mem_map_of_mem Prod.fst hh)
    · have hv0 : v = 0 := congrArg Prod.snd (List.mem_singleton.mp hh)
      exact hvne (by rw [hv0, hbase])

theorem C10_missing_seq_one_witness :
    ([LogLine.mk "t" 0 "a" 1] ≠ ([] : List LogLine)) ∧
      (∀ l ∈ [LogLine.mk "t" 0 "a" 1], l.number ≠ 1) ∧
      npsOf (runLog initState [LogLine.mk "t" 0 "a" 1]) = 0 ∧
      ((1 : Int), (0 : Nat)) ∈ touchedNumberCount (runLog initState [LogLine.mk "t" 0 "a" 1]) ∧
      Report.seqMismatch 0 (countNum 0 [LogLine.mk "t" 0 "a" 1]) 0 ∈
        reportOf (runLog initState [LogLine.mk "t" 0 "a" 1]) ∧
      Report.seqMismatch 1 0 0 ∉ reportOf (runLog initState [LogLine.mk "t" 0 "a" 1]) := by
  have h := C10_missing_seq_one [LogLine.mk "t" 0 "a" 1] (by decide) (by decide)
  exact ⟨by decide, by decide, h.1, h.2.1, h.2.2.1 0 (by decide), h.2.2.2 0 0⟩

theorem filterMap_seqKey_reportOf (st : ParseState) :
    (reportOf st).filterMap seqKey? = (seqReports st).filterMap seqKey? := by
  unfold reportOf
  rw [List.filterMap_append, List.filterMap_append, List.filterMap_append,
    List.filterMap_append]
  have h1 : (opReports st).filterMap seqKey? = [] := by
    rw [List.filterMap_eq_nil_iff]
    intro r hr
    rcases shape_opReports hr with ⟨a, b, c, he⟩
    rw [he]; rfl
  have h3 : (rangeReports st).filterMap seqKey? = [] := by
    rw [List.filterMap_eq_nil_iff]
    intro r hr
    rcases shape_rangeReports hr with ⟨a, b, he⟩
    rw [he]; rfl
  have h4 : (perOpReports st).filterMap seqKey? = [] := by
    rw [List.filterMap_eq_nil_iff]
    intro r hr
    rcases shape_perOpReports hr with ⟨a, b, he⟩
    rw [he]; rfl
  have h5 : ([Report.summary st.total_lines]).filterMap seqKey? = [] := rfl
  rw [h1, h3, h4, h5]
  simp

theorem pairwise_fst_filterMap (nps : Nat) (l : List (Int × Nat))
    (h : l.Pairwise fun p q : Int × Nat => p.1 < q.1) :
    (l.filterMap fun p => if p.2 ≠ nps then some p.1 else none).Pairwise
      (fun a b : Int => a < b) := by
  induction l with
  | nil => exact List.Pairwise.nil
  | cons p rest ih =>
    rw [List.pairwise_cons] at h
    rw [List.filterMap_cons]
    by_cases hc : p.2 ≠ nps
    · rw [if_pos hc, List.pairwise_cons]
      constructor
      · intro a ha
        rcases List.mem_filterMap.mp ha with ⟨q, hq, hfq⟩
        by_cases hcq : q.2 ≠ nps
        · rw [if_pos hcq] at hfq
          rw [← Option.some_inj.mp hfq]
          exact h.1 q hq
        · rw [if_neg hcq] at hfq
          simp at hfq
      · exact ih h.2
    · rw [if_neg hc]
      exact ih h.2

/-- C9: the sequence numbers flagged by the per-sequence-number check
appear in strictly ascending numeric order in the report list, whatever
the input order was (the loop runs over the sorted dictionary items and
the keys are distinct). -/
theorem C9_ascending_order (log : List LogLine) :
    ((reportOf (runLog initState log)).filterMap seqKey?).Pairwise
      (fun a b : Int => a < b) := by
  rw [filterMap_seqKey_reportOf]
  unfold seqReports
  rw [List.filterMap_filterMap]
  have hfun : (fun p : Int × Nat =>
      (if p.2 ≠ npsOf (runLog initState log) then
        some (Report.seqMismatch p.1 p.2 (npsOf (runLog initState log))) else none).bind
          seqKey?) =
      fun p : Int × Nat =>
        if p.2 ≠ npsOf (runLog initState log) then some p.1 else none := by
    funext p
    by_cases hc : p.2 ≠ npsOf (runLog initState log)
    · rw [if_pos hc, if_pos hc]; rfl
    · rw [if_neg hc, if_neg hc]; rfl
  rw [hfun]
  have hsorted : (sortPairs (touchedNumberCount (runLog initState log))).Pairwise pairLE :=
    List.sorted_insertionSort pairLE (touchedNumberCount (runLog initState log))
  have hnodup : (sortPairs (touchedNumberCount (runLog initState log))).Pairwise
      (fun p q : Int × Nat => p.1 ≠ q.1) := by
    have hn : KeysNodup (touchedNumberCount (runLog initState log)) := by
      have h0 := keysNodup_runLog initState log keysNodup_initState.1
        keysNodup_initState.2.1 keysNodup_initState.2.2
      exact keysNodup_dtouch 0 h0.2.2
    have hperm := List.perm_insertionSort pairLE (touchedNumberCount (runLog initState log))
    exact (hperm.pairwise_iff fun h => Ne.symm h).mpr hn
  have hlt : (sortPairs (touchedNumberCount (runLog initState log))).Pairwise
      (fun p q : Int × Nat => p.1 < q.1) :=
    (hsorted.and hnodup).imp fun hab => lt_of_le_of_ne hab.1 hab.2
  exact pairwise_fst_filterMap _ _ hlt

theorem parseLine_eq_none_of_malformed (sep line : String)
    (h : (pySplit sep line).length ≠ 4 ∨
      pyInt? ((pySplit sep line).getD 1 "") = none ∨
      pyInt? ((pySplit sep line).getD 3 "") = none) :
    parseLine sep line = none := by
  unfold parseLine
  cases hs : pySplit sep line with
  | nil => rfl
  | cons a t1 => cases t1 with
    | nil => rfl
    | cons b t2 => cases t2 with
      | nil => rfl
      | cons c t3 => cases t3 with
        | nil => rfl
        | cons d t4 => cases t4 with
          | cons e t5 => rfl
          | nil =>
            rw [hs] at h
            simp at h
            rcases h with hn | hn
            · simp [hn]
            · cases hb : pyInt? b <;> simp [hn, hb]

theorem runLines_append_none (sep : String) (pre : List String) (bad : String)
    (rest : List String) (hpre : ∀ l ∈ pre, (parseLine sep l).isSome = true)
    (hb : parseLine sep bad = none) (st : ParseState) :
    runLines sep st (pre ++ bad :: rest) = none := by
  induction pre generalizing st with
  | nil => simp [runLines, hb]
  | cons p ps ih =>
    have hp : (parseLine sep p).isSome = true := hpre p (List.mem_cons_self p ps)
    cases hpl : parseLine sep p with
    | none => rw [hpl] at hp; simp at hp
    | some l =>
      rw [List.cons_append]
      unfold runLines
      rw [hpl]
      exact ih (fun x hx => hpre x (List.mem_cons_of_mem p hx)) (processLine st l)

/-- C6: a line that does not split into exactly four fields, or whose
second or fourth field is not an integer, kills the run at that line: no
later line is processed and no report at all is produced. -/
theorem C6_malformed_aborts (sep : String) (pre : List String) (bad : String)
    (rest : List String)
    (hpre : ∀ l ∈ pre, (parseLine sep l).isSome = true)
    (hbad : (pySplit sep bad).length ≠ 4 ∨
      pyInt? ((pySplit sep bad).getD 1 "") = none ∨
      pyInt? ((pySplit sep bad).getD 3 "") = none) :
    parse sep (pre ++ bad :: rest) = none := by
  unfold parse
  rw [runLines_append_none sep pre bad rest hpre
    (parseLine_eq_none_of_malformed sep bad hbad) initState]
  rfl

theorem C6_malformed_aborts_witness :
    (∀ l ∈ ["0,1,a,2"], (parseLine "," l).isSome = true) ∧
      ((pySplit "," "xx").length ≠ 4 ∨
        pyInt? ((pySplit "," "xx").getD 1 "") = none ∨
        pyInt? ((pySplit "," "xx").getD 3 "") = none) ∧
      parse "," (["0,1,a,2"] ++ "xx" :: ["0,3,a,4"]) = none :=
  ⟨by decide, Or.inl (by decide),
    C6_malformed_aborts "," ["0,1,a,2"] "xx" ["0,3,a,4"] (by decide) (Or.inl (by decide))⟩

theorem le_foldl_max (l : List Int) (a : Int) : a ≤ l.foldl max a := by
  induction l generalizing a with
  | nil => exact le_refl a
  | cons x xs ih => exact le_trans (le_max_left a x) (ih (max a x))

theorem mem_le_foldl_max {l : List Int} {x : Int} (hx : x ∈ l) (a : Int) :
    x ≤ l.foldl max a := by
  induction l generalizing a with
  | nil => simp at hx
  | cons y ys ih =>
    rcases List.mem_cons.mp hx with hh | hh
    · subst hh
      exact le_trans (le_max_right a x) (le_foldl_max ys (max a x))
    · exact ih hh (max a y)

theorem foldl_max_le {c : Int} :
    ∀ (l : List Int) (a : Int), a ≤ c → (∀ x ∈ l, x ≤ c) → l.foldl max a ≤ c := by
  intro l
  induction l with
  | nil => exact fun a ha _ => ha
  | cons x xs ih =>
    intro a ha hall
    exact ih (max a x) (max_le ha (hall x (List.mem_cons_self x xs)))
      fun y hy => hall y (List.mem_cons_of_mem x hy)

theorem foldl_max_mem_or (l : List Int) (a : Int) :
    l.foldl max a = a ∨ l.foldl max a ∈ l := by
  induction l generalizing a with
  | nil => left; rfl
  | cons x xs ih =>
    rcases ih (max a x) with hh | hh
    · rcases max_choice a x with hc | hc
      · left; rw [List.foldl_cons, hh, hc]
      · right; rw [List.foldl_cons, hh, hc]; exact List.mem_cons_self x xs
    · right; exact List.mem_cons_of_mem x hh

theorem foldl_max_eq {l : List Int} {c : Int} (h0 : 0 ≤ c) (hall : ∀ x ∈ l, x ≤ c)
    (hmem : c ∈ l) : l.foldl max 0 = c :=
  le_antisymm (foldl_max_le l 0 h0 hall) (mem_le_foldl_max hmem 0)

theorem maxSeqSpec_eq_foldl (log : List LogLine) :
    maxSeqSpec log = (log.map LogLine.number).foldl max 0 := by
  rw [List.foldl_map]
  rfl

theorem max_number_runLog_init (log : List LogLine) :
    (runLog initState log).max_number = maxSeqSpec log := by
  rw [max_number_runLog]
  rfl

theorem total_lines_runLog_init (log : List LogLine) :
    (runLog initState log).total_lines = log.length := by
  rw [total_lines_runLog]
  simp [initState]

theorem maxSeqSpec_mem {log : List LogLine} (hne : log ≠ [])
    (h0 : ∀ l ∈ log, 0 ≤ l.number) : maxSeqSpec log ∈ log.map LogLine.number := by
  have heq := maxSeqSpec_eq_foldl log
  rcases foldl_max_mem_or (log.map LogLine.number) 0 with hh | hh
  · cases log with
    | nil => exact absurd rfl hne
    | cons l ls =>
      have hx : l.number ∈ (l :: ls).map LogLine.number :=
        List.mem_map_of_mem _ (List.mem_cons_self l ls)
      have h1 := mem_le_foldl_max hx 0
      rw [hh] at h1
      have h2 : 0 ≤ l.number := h0 l (List.mem_cons_self l ls)
      have h3 : l.number = 0 := le_antisymm h1 h2
      rw [heq, hh, ← h3]
      exact hx
  · rw [heq]
    exact hh

/-- C4: the total-count-vs-range check computes the expected total as
(maximum observed sequence number + 1) times the parallelism baseline,
and a report carrying the total line count is printed exactly when the
total differs from that expected value.  (With non-negative sequence
numbers the accumulator max_number is the maximum observed whenever the
log is non-empty, as the first conjunct records.) -/
theorem C4_total_vs_range (log : List LogLine) (h0 : ∀ l ∈ log, 0 ≤ l.number) :
    (log ≠ [] → maxSeqSpec log ∈ log.map LogLine.number) ∧
      ∀ (t : Nat) (m : Int),
        Report.totalRange t m ∈ reportOf (runLog initState log) ↔
          (t = log.length ∧ m = maxSeqSpec log + 1 ∧
            (log.length : Int) ≠ (maxSeqSpec log + 1) * (npsSpec log : Int)) := by
  refine ⟨fun hne => maxSeqSpec_mem hne h0, fun t m => ?_⟩
  rw [totalRange_mem_reportOf]
  have h3 : npsOf (runLog initState log) = npsSpec log := npsOf_runLog log
  rw [total_lines_runLog_init, max_number_runLog_init, h3]

theorem C4_total_vs_range_witness :
    (∀ l ∈ [LogLine.mk "t" 0 "a" 1], 0 ≤ l.number) ∧
      Report.totalRange 1 1 ∈ reportOf (runLog initState [LogLine.mk "t" 0 "a" 1]) := by
  refine ⟨by decide, ?_⟩
  apply ((C4_total_vs_range [LogLine.mk "t" 0 "a" 1] (by decide)).2 1 1).mpr
  refine ⟨by decide, by decide, by decide⟩

theorem dget_maxOperatorSum_runLog_init (log : List LogLine) (s : String) :
    dget 0 s (runLog initState log).maxOperatorSum = maxOpSpec s log := by
  rw [dget_maxOperatorSum_runLog]
  rfl

theorem dget_totalOperatorCounts_runLog_init (log : List LogLine) (s : String) :
    dget 0 s (runLog initState log).totalOperatorCounts = countName s log := by
  rw [dget_totalOperatorCounts_runLog]
  simp [initState, dget, dfind?]

theorem mem_keys_maxOperatorSum_runLog_init (log : List LogLine) (s : String) :
    s ∈ (runLog initState log).maxOperatorSum.map Prod.fst ↔ ∃ l ∈ log, l.name = s := by
  rw [mem_keys_maxOperatorSum_runLog]
  simp [initState]

/-- C3 counterexample: operator "op" emits two lines with reported counts
2 then 1, so its LAST reported operator count (1) differs from its true
line count (2); it is the only operator; yet the operator-count check
flags nothing, because the check compares the MAXIMUM reported count
(2), which matches.  The full report is just the summary line. -/
theorem C3_counterexample :
    ((([LogLine.mk "t" 0 "op" 2, LogLine.mk "t" 1 "op" 1].filter
          fun l => decide (l.name = "op")).getLast?).map LogLine.operator_count =
        some 1) ∧
      countName "op" [LogLine.mk "t" 0 "op" 2, LogLine.mk "t" 1 "op" 1] = 2 ∧
      reportOf (runLog initState [LogLine.mk "t" 0 "op" 2, LogLine.mk "t" 1 "op" 1]) =
        [Report.summary 2] := by
  decide

/-- C3 (amended): with "last reported operatorCount" amended to "maximum
reported operatorCount" (the quantity the check actually records), an
input with exactly one operator whose maximum differs from its true line
count is flagged exactly at that operator, with the recorded maximum and
the actual line count, and no other operator is flagged. -/
theorem C3_operator_mismatch_flagging (log : List LogLine) (bad : String)
    (hbadIn : ∃ l ∈ log, l.name = bad)
    (hbadNe : maxOpSpec bad log ≠ ((countName bad log : Nat) : Int))
    (hothers : ∀ s : String, (∃ l ∈ log, l.name = s) → s ≠ bad →
      maxOpSpec s log = ((countName s log : Nat) : Int)) :
    ∀ (name : String) (m : Int) (t : Nat),
      Report.opMismatch name m t ∈ reportOf (runLog initState log) ↔
        (name = bad ∧ m = maxOpSpec bad log ∧ t = countName bad log) := by
  intro name m t
  rw [opMismatch_mem_reportOf]
  constructor
  · rintro ⟨hk, hm, ht, hne⟩
    rw [dget_maxOperatorSum_runLog_init] at hm
    rw [dget_totalOperatorCounts_runLog_init] at ht
    have hobs := (mem_keys_maxOperatorSum_runLog_init log name).mp hk
    by_cases hnb : name = bad
    · subst hnb
      exact ⟨rfl, hm, ht⟩
    · rw [hm, ht] at hne
      exact absurd (hothers name hobs hnb) hne
  · rintro ⟨hn, hm, ht⟩
    refine ⟨?_, ?_, ?_, ?_⟩
    · rw [mem_keys_maxOperatorSum_runLog_init, hn]
      exact hbadIn
    · rw [dget_maxOperatorSum_runLog_init, hn]
      exact hm
    · rw [dget_totalOperatorCounts_runLog_init, hn]
      exact ht
    · rw [hm, ht]
      exact hbadNe

/-- Input for the C3 witness: operator "a" reports maximum 5 against 1
actual line, operator "b" reports its true count 1. -/
def exLogC3 : List LogLine := [LogLine.mk "t" 0 "a" 5, LogLine.mk "t" 1 "b" 1]

theorem C3_operator_mismatch_flagging_witness :
    (∃ l ∈ exLogC3, l.name = "a") ∧
      maxOpSpec "a" exLogC3 ≠ ((countName "a" exLogC3 : Nat) : Int) ∧
      (Report.opMismatch "a" (maxOpSpec "a" exLogC3) (countName "a" exLogC3) ∈
        reportOf (runLog initState exLogC3)) ∧
      ¬ Report.opMismatch "b" (maxOpSpec "b" exLogC3) (countName "b" exLogC3) ∈
        reportOf (runLog initState exLogC3) := by
  have hothers : ∀ s : String, (∃ l ∈ exLogC3, l.name = s) → s ≠ "a" →
      maxOpSpec s exLogC3 = ((countName s exLogC3 : Nat) : Int) := by
    rintro s ⟨l, hl, hn⟩ hne
    rcases List.mem_cons.mp hl with he | he
    · rw [he] at hn
      exact absurd hn.symm hne
    · rcases List.mem_cons.mp he with he2 | he2
      · rw [he2] at hn
        rw [← hn]
        decide
      · simp at he2
  have hmain := C3_operator_mismatch_flagging exLogC3 "a" (by decide) (by decide) hothers
  refine ⟨by decide, by decide, ?_, ?_⟩
  · exact (hmain "a" (maxOpSpec "a" exLogC3) (countName "a" exLogC3)).mpr ⟨rfl, rfl, rfl⟩
  · intro hmem
    have := (hmain "b" (maxOpSpec "b" exLogC3) (countName "b" exLogC3)).mp hmem
    exact absurd this.1 (by decide)

/-- Reference multiset for the happy-path log: every sequence number
below `N`, `S` times each. -/
def refList (S : Nat) : Nat → List Int
  | 0 => []
  | n + 1 => refList S n ++ List.replicate S ((n : Nat) : Int)

theorem length_refList (S N : Nat) : (refList S N).length = N * S := by
  induction N with
  | zero => simp [refList]
  | succ n ih =>
    rw [refList, List.length_append, ih, List.length_replicate]
    ring

theorem count_refList (S N : Nat) (a : Int) :
    (refList S N).count a = if 0 ≤ a ∧ a < (N : Int) then S else 0 := by
  induction N with
  | zero =>
    rw [if_neg (by push_cast; omega)]
    rfl
  | succ n ih =>
    rw [refList, List.count_append, ih, List.count_replicate]
    by_cases ha : a = ((n : Nat) : Int)
    · have hbeq : (((n : Nat) : Int) == a) = true := by rw [ha]; simp
      rw [if_neg (by omega), if_pos hbeq, if_pos (by push_cast; omega)]
      omega
    · have hbeq : ¬ (((n : Nat) : Int) == a) = true := by
        simp
        exact fun hh => ha hh.symm
      rw [if_neg hbeq]
      by_cases hc : 0 ≤ a ∧ a < ((n : Nat) : Int)
      · rw [if_pos hc, if_pos (by push_cast at hc ⊢; omega)]
        omega
      · rw [if_neg hc, if_neg (by push_cast at hc ⊢; omega)]

theorem count_map_number (log : List LogLine) (a : Int) :
    (log.map LogLine.number).count a = countNum a log := by
  induction log with
  | nil => rfl
  | cons l ls ih =>
    rw [List.map_cons, List.count_cons, ih]
    unfold countNum
    rw [List.countP_cons]
    by_cases hc : l.number = a
    · simp [countNum, hc]
    · have hca : ¬ a = l.number := fun hh => hc hh.symm
      simp [countNum, hc, hca]

theorem length_eq_of_seq_counts {S N : Nat} {log : List LogLine}
    (hseq : ∀ n : Int, countNum n log = if 0 ≤ n ∧ n < (N : Int) then S else 0) :
    log.length = S * N := by
  have hperm : List.Perm (log.map LogLine.number) (refList S N) := by
    rw [List.perm_iff_count]
    intro a
    rw [count_map_number, count_refList, hseq]
  have h1 : log.length = (refList S N).length := by
    rw [← List.length_map log LogLine.number]
    exact hperm.length_eq
  rw [h1, length_refList, Nat.mul_comm]

theorem maxOp_foldl_eq (s : String) (log : List LogLine) (a : Int) :
    log.foldl (fun a l => if l.name = s then max a l.operator_count else a) a =
      ((log.filter fun l => decide (l.name = s)).map LogLine.operator_count).foldl max a := by
  induction log generalizing a with
  | nil => rfl
  | cons l ls ih =>
    by_cases hc : l.name = s
    · simp [hc, ih]
    · simp [hc, ih]

/-- An operator all of whose reported counts are bounded by its true line
count, with one report equal to it, has that count as its recorded
maximum. -/
theorem maxOpSpec_eq_countName {log : List LogLine} {s : String}
    (hople : ∀ l ∈ log, l.name = s → l.operator_count ≤ ((countName s log : Nat) : Int))
    (hfin : ∃ l ∈ log, l.name = s ∧ l.operator_count = ((countName s log : Nat) : Int)) :
    maxOpSpec s log = ((countName s log : Nat) : Int) := by
  unfold maxOpSpec
  rw [maxOp_foldl_eq]
  apply foldl_max_eq
  · exact Int.natCast_nonneg _
  · intro x hx
    rcases List.mem_map.mp hx with ⟨l, hl, hlx⟩
    have hf := List.mem_filter.mp hl
    rw [← hlx]
    exact hople l hf.1 (of_decide_eq_true hf.2)
  · rcases hfin with ⟨l, hl, hn, hoc⟩
    rw [← hoc]
    exact List.mem_map_of_mem _ (List.mem_filter.mpr ⟨hl, by simp [hn]⟩)

theorem exists_final_report {log : List LogLine} {s : String}
    (hobs : ∃ l ∈ log, l.name = s)
    (hfin : ∀ l₀ : LogLine,
      (log.filter fun l => decide (l.name = s)).getLast? = some l₀ →
      l₀.operator_count = ((countName s log : Nat) : Int)) :
    ∃ l ∈ log, l.name = s ∧ l.operator_count = ((countName s log : Nat) : Int) := by
  rcases hobs with ⟨l, hl, hn⟩
  have hne : (log.filter fun x => decide (x.name = s)) ≠ [] := by
    intro hemp
    have hmem : l ∈ log.filter fun x => decide (x.name = s) :=
      List.mem_filter.mpr ⟨hl, by simp [hn]⟩
    rw [hemp] at hmem
    simp at hmem
  have hsome := List.getLast?_eq_getLast_of_ne_nil hne
  have hmem := List.getLast_mem hne
  have hmf := List.mem_filter.mp hmem
  exact ⟨_, hmf.1, of_decide_eq_true hmf.2, hfin _ hsome⟩

/-- C1 (amended): the happy-path round trip holds for every `S` and every
`N ≠ 1`.  For `N = 1` the only sequence number emitted is 0, the baseline
`numberCount[1]` is 0, and spurious per-sequence-number and
total-vs-range reports appear (see the counterexample), which is the only
amendment the code forces.  Hypotheses state the synthetic log exactly:
every sequence number in `0..N-1` is received `S` times and nothing else
is received; every reported operator count is at most the operator's true
line count; the last line of every operator reports exactly its true line
count.  The validator then prints nothing but the summary line `S * N`. -/
theorem C1_round_trip (S N : Nat) (log : List LogLine) (hN : N ≠ 1)
    (hseq : ∀ n : Int, countNum n log = if 0 ≤ n ∧ n < (N : Int) then S else 0)
    (hople : ∀ l ∈ log, l.operator_count ≤ ((countName l.name log : Nat) : Int))
    (hfin : ∀ (s : String) (l₀ : LogLine),
      (log.filter fun l => decide (l.name = s)).getLast? = some l₀ →
      l₀.operator_count = ((countName s log : Nat) : Int)) :
    reportOf (runLog initState log) = [Report.summary (S * N)] := by
  have hop : ∀ s : String, (∃ l ∈ log, l.name = s) →
      maxOpSpec s log = ((countName s log : Nat) : Int) := by
    intro s hobs
    apply maxOpSpec_eq_countName
    · intro l hl hn
      have hb := hople l hl
      rw [hn] at hb
      exact hb
    · exact exists_final_report hobs (hfin s)
  have hopRep : opReports (runLog initState log) = [] := by
    unfold opReports
    rw [List.filterMap_eq_nil_iff]
    intro name hname
    have hobs := (mem_keys_maxOperatorSum_runLog_init log name).mp hname
    have hcond : ¬ (dget 0 name (runLog initState log).maxOperatorSum ≠
        ((dget 0 name (runLog initState log).totalOperatorCounts : Nat) : Int)) := by
      rw [dget_maxOperatorSum_runLog_init, dget_totalOperatorCounts_runLog_init]
      exact fun hh => hh (hop name hobs)
    rw [if_neg hcond]
  have hperOp : perOpReports (runLog initState log) = [] := by
    unfold perOpReports
    rw [if_neg (fun hh => hh (total_lines_eq_sum_runLog initState log rfl))]
  have hmem_pos : ∀ l ∈ log, 0 < countNum l.number log := by
    intro l hl
    unfold countNum
    rw [List.countP_pos_iff]
    exact ⟨l, hl, by simp⟩
  have hempty : (∀ n : Int, countNum n log = 0) → log = [] := by
    intro hz
    cases log with
    | nil => rfl
    | cons l ls =>
      have hpos := hmem_pos l (List.mem_cons_self l ls)
      rw [hz l.number] at hpos
      omega
  by_cases hS : S = 0
  · have hlog : log = [] := by
      apply hempty
      intro n
      rw [hseq n, hS]
      simp
    subst hlog
    rw [hS, Nat.zero_mul]
    decide
  by_cases hN0 : N = 0
  · have hlog : log = [] := by
      apply hempty
      intro n
      rw [hseq n, hN0]
      rw [if_neg (by push_cast; omega)]
    subst hlog
    rw [hN0, Nat.mul_zero]
    decide
  have hN2 : 2 ≤ N := by omega
  have hobs_iff : ∀ n : Int, (∃ l ∈ log, l.number = n) ↔ (0 ≤ n ∧ n < (N : Int)) := by
    intro n
    constructor
    · intro hobs
      have hpos : 0 < countNum n log := by
        unfold countNum
        rw [List.countP_pos_iff]
        rcases hobs with ⟨l, hl, hn⟩
        exact ⟨l, hl, by simp [hn]⟩
      rw [hseq n] at hpos
      by_cases hc : 0 ≤ n ∧ n < (N : Int)
      · exact hc
      · rw [if_neg hc] at hpos
        omega
    · intro hc
      have hcount : countNum n log = S := by rw [hseq n, if_pos hc]
      have hpos : 0 < countNum n log := by omega
      unfold countNum at hpos
      rw [List.countP_pos_iff] at hpos
      rcases hpos with ⟨l, hl, hd⟩
      exact ⟨l, hl, of_decide_eq_true hd⟩
  have hobs1 : ∃ l ∈ log, l.number = 1 := (hobs_iff 1).mpr (by omega)
  have hkey1 : (1 : Int) ∈ (runLog initState log).numberCount.map Prod.fst := by
    rw [mem_keys_numberCount_runLog]
    right
    exact hobs1
  have htouch : touchedNumberCount (runLog initState log) =
      (runLog initState log).numberCount := dtouch_of_mem 0 hkey1
  have hnps : npsOf (runLog initState log) = S := by
    rw [npsOf_runLog, hseq 1, if_pos (by omega)]
  have hseqRep : seqReports (runLog initState log) = [] := by
    unfold seqReports
    rw [List.filterMap_eq_nil_iff]
    intro p hp
    have hpmem : p ∈ touchedNumberCount (runLog initState log) :=
      (List.perm_insertionSort pairLE _).mem_iff.mp hp
    rw [htouch] at hpmem
    have hnd : KeysNodup (runLog initState log).numberCount :=
      (keysNodup_runLog initState log keysNodup_initState.1 keysNodup_initState.2.1
        keysNodup_initState.2.2).2.2
    have hget : dget 0 p.1 (runLog initState log).numberCount = p.2 :=
      dget_eq_of_mem hnd 0 hpmem
    have hcnt : dget 0 p.1 (runLog initState log).numberCount = countNum p.1 log := by
      rw [dget_numberCount_runLog]
      simp [initState, dget, dfind?]
    have hkeyp : p.1 ∈ (runLog initState log).numberCount.map Prod.fst :=
      List.mem_map_of_mem Prod.fst hpmem
    rw [mem_keys_numberCount_runLog] at hkeyp
    have hobsp : ∃ l ∈ log, l.number = p.1 := by
      rcases hkeyp with hh | hh
      · simp [initState] at hh
      · exact hh
    have hrangep := (hobs_iff p.1).mp hobsp
    have hval : p.2 = S := by
      rw [← hget, hcnt, hseq p.1, if_pos hrangep]
    rw [if_neg (fun hh => hh (by rw [hval, hnps]))]
  have hlen : log.length = S * N := length_eq_of_seq_counts hseq
  have htot : (runLog initState log).total_lines = S * N := by
    rw [total_lines_runLog_init, hlen]
  have hmax : (runLog initState log).max_number = (N : Int) - 1 := by
    rw [max_number_runLog_init, maxSeqSpec_eq_foldl]
    apply foldl_max_eq
    · omega
    · intro x hx
      rcases List.mem_map.mp hx with ⟨l, hl, hlx⟩
      have hr := (hobs_iff l.number).mp ⟨l, hl, rfl⟩
      omega
    · have hobsm : ∃ l ∈ log, l.number = (N : Int) - 1 := (hobs_iff _).mpr (by omega)
      rcases hobsm with ⟨l, hl, hn⟩
      rw [← hn]
      exact List.mem_map_of_mem _ hl
  have hrange : rangeReports (runLog initState log) = [] := by
    unfold rangeReports
    rw [if_neg (fun hh => hh (by rw [htot, hmax, hnps]; push_cast; ring))]
  unfold reportOf
  rw [hopRep, hseqRep, hrange, hperOp, htot]
  simp

/-- C1 counterexample: the claim as stated fails at S = 1, N = 1.  One
source emits every sequence number in 0..0 exactly once (one line per
sequence number) and its reported operator count always equals its true
line count, yet validation is not silent: the baseline `numberCount[1]`
is 0, so sequence number 0 is flagged and a total-vs-range report is
printed; the output is not the bare summary `[summary (1 * 1)]`. -/
theorem C1_counterexample :
    countNum 0 [LogLine.mk "t" 0 "src" 1] = 1 ∧
      (∀ l ∈ [LogLine.mk "t" 0 "src" 1], l.number = 0) ∧
      (∀ l ∈ [LogLine.mk "t" 0 "src" 1],
        l.operator_count = ((countName l.name [LogLine.mk "t" 0 "src" 1] : Nat) : Int)) ∧
      reportOf (runLog initState [LogLine.mk "t" 0 "src" 1]) ≠
        [Report.summary (1 * 1)] ∧
      Report.seqMismatch 0 1 0 ∈ reportOf (runLog initState [LogLine.mk "t" 0 "src" 1]) := by
  decide

/-- Input for the C1 witness: two sources "a" and "b", each emitting
sequence numbers 0 and 1 once, reporting running counts 1 then 2. -/
def exLogC1 : List LogLine :=
  [LogLine.mk "t" 0 "a" 1, LogLine.mk "t" 1 "a" 2,
    LogLine.mk "t" 0 "b" 1, LogLine.mk "t" 1 "b" 2]

theorem C1_round_trip_witness :
    reportOf (runLog initState exLogC1) = [Report.summary (2 * 2)] := by
  refine C1_round_trip 2 2 exLogC1 (by omega) ?_ ?_ ?_
  · intro n
    by_cases h0 : n = 0
    · subst h0
      decide
    · by_cases h1 : n = 1
      · subst h1
        decide
      · have hL : countNum n exLogC1 = 0 := by
          unfold countNum exLogC1
          rw [List.countP_eq_zero]
          intro l hl
          fin_cases hl <;> simp <;> omega
        rw [hL, if_neg (by push_cast; omega)]
  · decide
  · intro s l₀ hsome
    have hlast : l₀ ∈ (exLogC1.filter fun l => decide (l.name = s)).getLast? := by
      rw [hsome]
      rfl
    have hmem := List.mem_of_mem_getLast? hlast
    have hf := List.mem_filter.mp hmem
    have hns : l₀.name = s := of_decide_eq_true hf.2
    subst hns
    have hl := hf.1
    fin_cases hl <;> first | decide | exact absurd hsome (by decide)

theorem C5_total_eq_sum_witness :
    (runLog initState [LogLine.mk "t" 0 "a" 1]).total_lines =
        (((runLog initState [LogLine.mk "t" 0 "a" 1]).totalOperatorCounts.map
          Prod.snd)).sum ∧
      Report.totalPerOp 1 ["a"] ∉ reportOf (runLog initState [LogLine.mk "t" 0 "a" 1]) :=
  ⟨(C5_total_eq_sum [LogLine.mk "t" 0 "a" 1]).1,
    (C5_total_eq_sum [LogLine.mk "t" 0 "a" 1]).2 1 ["a"]⟩

end ParallelVerify
